import Mathlib

/-!
Shallow embedding of the utility functions of `src/index.ts` and proofs of
the behavioural properties stated for them.  Each TypeScript function is
translated to a total Lean function: `number` values become `ℤ` where the
code only squares or doubles, and `ℚ` for prices and ratings that are
merely compared; the promise of `squareAsync` becomes an `Except` value
carrying either the rejection message or the resolved number.
-/

namespace Assignment1

/-- `formatString` from src/index.ts: the optional flag defaults to `true`
(uppercase) via `toUpper ?? true`. -/
def formatString (input : String) (toUpper : Option Bool) : String :=
  if toUpper.getD true then input.toUpper else input.toLower

/-- The anonymous record type `{ title: string; rating: number }`. -/
structure RatedItem where
  title : String
  rating : ℚ
deriving DecidableEq

/-- `filterByRating` from src/index.ts: keep items with rating strictly
above 4. -/
def filterByRating (items : List RatedItem) : List RatedItem :=
  items.filter (fun item => item.rating > 4)

/-- `concatenateArrays` from src/index.ts: start with `[]` and push every
element of every input array in order (a left fold of append). -/
def concatenateArrays {T : Type} (arrays : List (List T)) : List T :=
  arrays.foldl (fun items item => items ++ item) []

/-- The `Vehicle` class from src/index.ts. -/
structure Vehicle where
  make : String
  year : ℤ

/-- `Vehicle.getInfo` from src/index.ts. -/
def Vehicle.getInfo (v : Vehicle) : String :=
  "Make: " ++ v.make ++ ", Year: " ++ toString v.year

/-- The `Car` class from src/index.ts, extending `Vehicle` with a model. -/
structure Car extends Vehicle where
  model : String

/-- `Car.getModel` from src/index.ts. -/
def Car.getModel (c : Car) : String :=
  "Model: " ++ c.model

/-- `processValue` from src/index.ts: length of a string, double of a
number. -/
def processValue (value : String ⊕ ℤ) : ℤ :=
  match value with
  | Sum.inl s => s.length
  | Sum.inr n => n * 2

/-- The `Product` interface from src/index.ts. -/
structure Product where
  name : String
  price : ℚ
deriving DecidableEq

/-- The body of the `forEach` in `getMostExpensiveProduct`: replace the
current best product when the new product is strictly more expensive. -/
def maxStep (best product : Product) : Product :=
  if product.price > best.price then product else best

/-- `getMostExpensiveProduct` from src/index.ts: `null` on the empty list,
otherwise start from `products[0]` and fold `maxStep` over the whole
list. -/
def getMostExpensiveProduct (products : List Product) : Option Product :=
  match products with
  | [] => none
  | p0 :: rest => some ((p0 :: rest).foldl maxStep p0)

/-- The `Day` enum from src/index.ts. -/
inductive Day where
  | monday
  | tuesday
  | wednesday
  | thursday
  | friday
  | saturday
  | sunday
deriving DecidableEq

/-- `getDayType` from src/index.ts. -/
def getDayType (day : Day) : String :=
  if day = Day.saturday ∨ day = Day.sunday then "Weekend" else "Weekday"

/-- `squareAsync` from src/index.ts, with the timer dropped: reject with
the error message for negative input, otherwise resolve to `n ** 2`. -/
def squareAsync (n : ℤ) : Except String ℤ :=
  if n < 0 then Except.error "Error: Negative number not allowed"
  else Except.ok (n ^ 2)

/-- Helper: `squareAsync` yields an error exactly on negative input. -/
theorem squareAsync_error_iff (n : ℤ) :
    (∃ e, squareAsync n = Except.error e) ↔ n < 0 := by
  constructor
  · rintro ⟨e, he⟩
    by_contra hn
    simp [squareAsync, hn] at he
  · intro hn
    exact ⟨"Error: Negative number not allowed", by simp [squareAsync, hn]⟩

/-- Helper: `getMostExpensiveProduct` is `none` exactly on `[]`. -/
theorem getMostExpensiveProduct_eq_none_iff (l : List Product) :
    getMostExpensiveProduct l = none ↔ l = [] := by
  cases l <;> simp [getMostExpensiveProduct]

/-- C1: `squareAsync n` rejects (with a descriptive error) iff `n < 0`,
and resolves to exactly `n ^ 2` for every `n ≥ 0`. -/
theorem squareAsync_spec (n : ℤ) :
    ((∃ e, squareAsync n = Except.error e) ↔ n < 0) ∧
    (0 ≤ n → squareAsync n = Except.ok (n ^ 2)) := by
  refine ⟨squareAsync_error_iff n, fun h => ?_⟩
  simp [squareAsync, not_lt.mpr h]

/-- Witness for C1 at `n = 3`. -/
theorem squareAsync_spec_witness :
    (0 : ℤ) ≤ 3 ∧ squareAsync 3 = Except.ok (3 ^ 2) :=
  ⟨by norm_num, (squareAsync_spec 3).2 (by norm_num)⟩

/-- Helper: folding `maxStep` over a list yields an element whose price
dominates the accumulator and every list element, and which is either the
accumulator itself or a list element strictly pricier than the accumulator
and than everything before it. -/
theorem foldl_maxStep_spec (l : List Product) (b : Product) :
    b.price ≤ (l.foldl maxStep b).price ∧
    (∀ p ∈ l, p.price ≤ (l.foldl maxStep b).price) ∧
    (l.foldl maxStep b = b ∨
      ∃ l1 l2, l = l1 ++ l.foldl maxStep b :: l2 ∧
        b.price < (l.foldl maxStep b).price ∧
        ∀ p ∈ l1, p.price < (l.foldl maxStep b).price) := by
  induction l generalizing b with
  | nil => exact ⟨le_refl _, by simp, Or.inl rfl⟩
  | cons p ls ih =>
    have hfold : (p :: ls).foldl maxStep b = ls.foldl maxStep (maxStep b p) := rfl
    by_cases hp : p.price > b.price
    · have hstep : maxStep b p = p := by unfold maxStep; exact if_pos hp
      obtain ⟨h1, h2, h3⟩ := ih p
      rw [hfold, hstep]
      refine ⟨le_of_lt (lt_of_lt_of_le hp h1), ?_, ?_⟩
      · intro q hq
        rcases List.mem_cons.mp hq with rfl | hq
        · exact h1
        · exact h2 q hq
      · rcases h3 with h3 | ⟨l1, l2, heq, hblt, hlt⟩
        · refine Or.inr ⟨[], ls, ?_, ?_, by simp⟩
          · rw [h3, List.nil_append]
          · rw [h3]; exact hp
        · refine Or.inr ⟨p :: l1, l2, ?_, lt_trans hp hblt, ?_⟩
          · rw [List.cons_append, ← heq]
          · rintro q hq
            rcases List.mem_cons.mp hq with rfl | hq
            · exact hblt
            · exact hlt q hq
    · have hstep : maxStep b p = b := by unfold maxStep; exact if_neg hp
      have hple : p.price ≤ b.price := le_of_not_lt hp
      obtain ⟨h1, h2, h3⟩ := ih b
      rw [hfold, hstep]
      refine ⟨h1, ?_, ?_⟩
      · intro q hq
        rcases List.mem_cons.mp hq with rfl | hq
        · exact le_trans hple h1
        · exact h2 q hq
      · rcases h3 with h3 | ⟨l1, l2, heq, hblt, hlt⟩
        · exact Or.inl h3
        · refine Or.inr ⟨p :: l1, l2, ?_, hblt, ?_⟩
          · rw [List.cons_append, ← heq]
          · rintro q hq
            rcases List.mem_cons.mp hq with rfl | hq
            · exact lt_of_le_of_lt hple hblt
            · exact hlt q hq

/-- C2: on a non-empty list, `getMostExpensiveProduct` returns a product
whose price dominates every product of the list, and the list splits as
`l1 ++ r :: l2` with everything in `l1` strictly cheaper than `r`: the
returned product is the first one attaining the maximum price. -/
theorem getMostExpensiveProduct_max_first (l : List Product) (h : l ≠ []) :
    ∃ r, getMostExpensiveProduct l = some r ∧
      (∀ p ∈ l, p.price ≤ r.price) ∧
      ∃ l1 l2, l = l1 ++ r :: l2 ∧ ∀ p ∈ l1, p.price < r.price := by
  match l with
  | [] => exact absurd rfl h
  | p0 :: ls =>
    obtain ⟨h1, h2, h3⟩ := foldl_maxStep_spec (p0 :: ls) p0
    refine ⟨(p0 :: ls).foldl maxStep p0, rfl, h2, ?_⟩
    rcases h3 with h3 | ⟨l1, l2, heq, _, hlt⟩
    · exact ⟨[], ls, by rw [h3, List.nil_append], by simp⟩
    · exact ⟨l1, l2, heq, hlt⟩

/-- Witness for C2 on a concrete two-product list. -/
theorem getMostExpensiveProduct_max_first_witness :
    ∃ r, getMostExpensiveProduct [⟨"a", 1⟩, ⟨"b", 2⟩] = some r ∧
      (∀ p ∈ ([⟨"a", 1⟩, ⟨"b", 2⟩] : List Product), p.price ≤ r.price) ∧
      ∃ l1 l2, ([⟨"a", 1⟩, ⟨"b", 2⟩] : List Product) = l1 ++ r :: l2 ∧
        ∀ p ∈ l1, p.price < r.price :=
  getMostExpensiveProduct_max_first [⟨"a", 1⟩, ⟨"b", 2⟩] (by simp)

/-- C3: `getMostExpensiveProduct` returns `none` on the empty list, and
only on the empty list. -/
theorem getMostExpensiveProduct_none_iff_empty (l : List Product) :
    getMostExpensiveProduct l = none ↔ l = [] :=
  getMostExpensiveProduct_eq_none_iff l

/-- C4: `filterByRating` returns a sublist of its input (same relative
order), and a record belongs to the result iff it belongs to the input and
has rating strictly above 4; in particular no record with rating ≤ 4 ever
appears in the result. -/
theorem filterByRating_spec (l : List RatedItem) :
    (filterByRating l).Sublist l ∧
    (∀ x, x ∈ filterByRating l ↔ x ∈ l ∧ x.rating > 4) := by
  constructor
  · exact List.filter_sublist l
  · intro x
    simp [filterByRating, List.mem_filter]

/-- Helper: the push-append fold of `concatenateArrays` starting from any
accumulator appends the join of the remaining arrays. -/
theorem foldl_append_eq_append_join {T : Type} (arrays : List (List T))
    (acc : List T) :
    arrays.foldl (fun items item => items ++ item) acc = acc ++ arrays.flatten := by
  induction arrays generalizing acc with
  | nil => simp
  | cons x xs ih => simp [ih, List.append_assoc]

/-- Helper: `concatenateArrays` is the join of its input arrays. -/
theorem concatenateArrays_eq_join {T : Type} (arrays : List (List T)) :
    concatenateArrays arrays = arrays.flatten := by
  simp [concatenateArrays, foldl_append_eq_append_join]

/-- C5: `concatenateArrays` returns the elements of its input arrays in
order (the join: first array, then the second, and so on), and the length
of the result is the sum of the input lengths. -/
theorem concatenateArrays_spec {T : Type} (arrays : List (List T)) :
    concatenateArrays arrays = arrays.flatten ∧
    (concatenateArrays arrays).length = (arrays.map List.length).sum := by
  refine ⟨concatenateArrays_eq_join arrays, ?_⟩
  rw [concatenateArrays_eq_join arrays]
  exact List.length_flatten arrays

/-- C6: `formatString` uppercases when the flag is `true`, lowercases when
it is `false`, and defaults to uppercase when the flag is omitted. -/
theorem formatString_spec (s : String) :
    formatString s (some true) = s.toUpper ∧
    formatString s (some false) = s.toLower ∧
    formatString s none = s.toUpper := by
  refine ⟨?_, ?_, ?_⟩ <;> simp [formatString]

/-- C7: `getDayType` returns "Weekend" exactly on Saturday and Sunday, and
"Weekday" exactly on the other five days. -/
theorem getDayType_spec (d : Day) :
    (getDayType d = "Weekend" ↔ (d = Day.saturday ∨ d = Day.sunday)) ∧
    (getDayType d = "Weekday" ↔ ¬(d = Day.saturday ∨ d = Day.sunday)) := by
  cases d <;> constructor <;> simp [getDayType]

/-- C8: `processValue` returns the length of a string input and twice a
numeric input. -/
theorem processValue_spec (s : String) (n : ℤ) :
    processValue (Sum.inl s) = s.length ∧ processValue (Sum.inr n) = n * 2 :=
  ⟨rfl, rfl⟩

/-- C9: every operation other than `squareAsync` is total: `formatString`,
`filterByRating`, `concatenateArrays`, `processValue`, `getDayType` and the
`Vehicle`/`Car` description methods always return a value; the only
operation with an absence result is `getMostExpensiveProduct`, which is
`none` exactly on the empty list; and `squareAsync` is the only fallible
operation, erroring exactly on negative input. -/
theorem only_squareAsync_fails :
    (∀ (s : String) (b : Option Bool), ∃ r : String, formatString s b = r) ∧
    (∀ l : List RatedItem, ∃ r : List RatedItem, filterByRating l = r) ∧
    (∀ (T : Type) (arrays : List (List T)), ∃ r : List T,
      concatenateArrays arrays = r) ∧
    (∀ v : String ⊕ ℤ, ∃ r : ℤ, processValue v = r) ∧
    (∀ d : Day, ∃ r : String, getDayType d = r) ∧
    (∀ v : Vehicle, ∃ r : String, v.getInfo = r) ∧
    (∀ c : Car, ∃ r : String, c.getModel = r) ∧
    (∀ l : List Product, getMostExpensiveProduct l = none ↔ l = []) ∧
    (∀ n : ℤ, (∃ e, squareAsync n = Except.error e) ↔ n < 0) := by
  refine ⟨fun s b => ⟨_, rfl⟩, fun l => ⟨_, rfl⟩, fun T arrays => ⟨_, rfl⟩,
    fun v => ⟨_, rfl⟩, fun d => ⟨_, rfl⟩, fun v => ⟨_, rfl⟩, fun c => ⟨_, rfl⟩,
    getMostExpensiveProduct_eq_none_iff, squareAsync_error_iff⟩

/-- C10: concatenating zero arrays yields the empty array, and
concatenating a single array yields that array unchanged. -/
theorem concatenateArrays_empty_and_single {T : Type} (xs : List T) :
    concatenateArrays ([] : List (List T)) = [] ∧
    concatenateArrays [xs] = xs := by
  constructor <;> simp [concatenateArrays]

end Assignment1
